import Mathlib

/-!
Verification development for the habit-tracking service.

Shallow embedding conventions:
* calendar dates (`datetime.date`) are modelled as day numbers in `ℤ`;
  adding one day is adding `1`;
* Python `float` values are modelled as `ℚ` (the spec only relies on
  ordering and exact arithmetic of the values involved);
* `None` is `Option.none`; raising `ValueError`/`KeyError` is modelled by
  returning an error value together with the store state reached so far;
* Python's wall-clock `date.today()` is an explicit `today : ℤ` parameter.
-/

namespace HabitApp

/-- `app/core/models.py`: `HabitType`. -/
inductive HabitType where
  | boolean
  | numeric
deriving DecidableEq, Repr

/-- `app/core/models.py`: `LogEntry` dataclass. -/
structure LogEntry where
  id : String
  habit_id : String
  date : ℤ
  value : Option ℚ
  created_at : ℤ
deriving DecidableEq, Repr

/-- `app/core/models.py`: `Habit` dataclass. -/
structure Habit where
  id : String
  name : String
  description : Option String
  category : Option String
  type : HabitType
  goal : Option ℚ
  created_at : ℤ
  parent_id : Option String
  subhabit_ids : List String
deriving DecidableEq, Repr

/-- `app/core/statistics.py`: `StatisticsResult` dataclass. -/
structure StatisticsResult where
  current_streak : ℕ
  longest_streak : ℕ
  total_completions : ℕ
  completion_rate : ℚ
  average_value : Option ℚ
  total_days_tracked : ℕ
deriving DecidableEq, Repr

/-- `app/api/schemas.py`: `HabitUpdate` (absent fields are `none`). -/
structure HabitUpdate where
  name : Option String
  description : Option String
  category : Option String
  goal : Option ℚ
deriving DecidableEq, Repr

/-- `StatisticsCalculator._filter_logs_by_date`. -/
def filterLogsByDate (logs : List LogEntry) (start : Option ℤ) (stop : Option ℤ) :
    List LogEntry :=
  let f1 := match start with
    | some a => logs.filter (fun l => a ≤ l.date)
    | none => logs
  match stop with
  | some b => f1.filter (fun l => l.date ≤ b)
  | none => f1

/-- The `while cursor in completed_dates` loop of
`StatisticsCalculator._calculate_streaks`, with explicit fuel.  The loop
performs at most `c.card` successful membership tests, so any fuel larger
than `c.card` computes the exact loop result. -/
def currentStreakAux (c : Finset ℤ) : ℕ → ℤ → ℕ
  | 0, _ => 0
  | fuel + 1, cursor =>
      if cursor ∈ c then currentStreakAux c fuel (cursor - 1) + 1 else 0

/-- The longest-streak scan loop of
`StatisticsCalculator._calculate_streaks`, after its first iteration:
`prev` is the previously seen date, `current` the running streak counter and
`longest` the running maximum. -/
def scanAux : ℤ → ℕ → ℕ → List ℤ → ℕ
  | _, _, longest, [] => longest
  | prev, current, longest, d :: rest =>
      if d - prev = 1 then scanAux d (current + 1) (max longest (current + 1)) rest
      else scanAux d 1 (max longest 1) rest

/-- The longest-streak computation of `_calculate_streaks`: sort the
completed dates ascending and scan once. -/
def longestStreakOf (c : Finset ℤ) : ℕ :=
  match Finset.sort (· ≤ ·) c with
  | [] => 0
  | d :: rest => scanAux d 1 1 rest

/-- `StatisticsCalculator._calculate_streaks`: returns
`(current_streak, longest_streak)`; an empty completed-date set short
circuits to `(0, 0)`. -/
def calculateStreaks (c : Finset ℤ) (today : ℤ) : ℕ × ℕ :=
  if c = ∅ then (0, 0)
  else (currentStreakAux c (c.card + 1) today, longestStreakOf c)

/-- Loop body of the completed-date accumulation in
`BooleanStatisticsCalculator.calculate`:
`if log.value is not None and log.value >= 1.0`. -/
def booleanStep (acc : Finset ℤ) (log : LogEntry) : Finset ℤ :=
  match log.value with
  | some v => if 1 ≤ v then insert log.date acc else acc
  | none => acc

/-- Completed-date set built by `BooleanStatisticsCalculator.calculate`. -/
def booleanCompletedDates (fl : List LogEntry) : Finset ℤ :=
  fl.foldl booleanStep ∅

/-- Loop body of `NumericStatisticsCalculator.calculate`: a present value
is always appended to `values`; the date is marked completed when the value
meets the goal (if any) or is positive (when there is no goal). -/
def numericStep (goal : Option ℚ) (acc : Finset ℤ × List ℚ) (log : LogEntry) :
    Finset ℤ × List ℚ :=
  match log.value with
  | none => acc
  | some v =>
      match goal with
      | some g =>
          if g ≤ v then (insert log.date acc.1, acc.2 ++ [v]) else (acc.1, acc.2 ++ [v])
      | none =>
          if 0 < v then (insert log.date acc.1, acc.2 ++ [v]) else (acc.1, acc.2 ++ [v])

/-- Completed-date set and collected values of
`NumericStatisticsCalculator.calculate`. -/
def numericAccum (goal : Option ℚ) (fl : List LogEntry) : Finset ℤ × List ℚ :=
  fl.foldl (numericStep goal) (∅, [])

/-- `BooleanStatisticsCalculator.calculate`. -/
def booleanCalculate (habit : Habit) (logs : List LogEntry)
    (start stop : Option ℤ) (today : ℤ) : StatisticsResult :=
  let fl := filterLogsByDate logs start stop
  let completed := booleanCompletedDates fl
  let streaks := calculateStreaks completed today
  let total_days := if fl.isEmpty then 0 else fl.length
  { current_streak := streaks.1
    longest_streak := streaks.2
    total_completions := completed.card
    completion_rate :=
      if 0 < total_days then (completed.card : ℚ) / (total_days : ℚ) else 0
    average_value := none
    total_days_tracked := total_days }

/-- `NumericStatisticsCalculator.calculate`. -/
def numericCalculate (habit : Habit) (logs : List LogEntry)
    (start stop : Option ℤ) (today : ℤ) : StatisticsResult :=
  let fl := filterLogsByDate logs start stop
  let acc := numericAccum habit.goal fl
  let streaks := calculateStreaks acc.1 today
  let total_days := if fl.isEmpty then 0 else fl.length
  { current_streak := streaks.1
    longest_streak := streaks.2
    total_completions := acc.1.card
    completion_rate :=
      if 0 < total_days then (acc.1.card : ℚ) / (total_days : ℚ) else 0
    average_value :=
      if acc.2.isEmpty then none else some (acc.2.sum / (acc.2.length : ℚ))
    total_days_tracked := total_days }

/-- `StatisticsCalculatorFactory` dispatch composed with the selected
calculator's `calculate`: both known habit types have a registered
calculator. -/
def computeStatistics (habit : Habit) (logs : List LogEntry)
    (start stop : Option ℤ) (today : ℤ) : StatisticsResult :=
  match habit.type with
  | .boolean => booleanCalculate habit logs start stop today
  | .numeric => numericCalculate habit logs start stop today

/-- The completed-date set used by the calculator selected for a habit. -/
def completedDatesOf (habit : Habit) (fl : List LogEntry) : Finset ℤ :=
  match habit.type with
  | .boolean => booleanCompletedDates fl
  | .numeric => (numericAccum habit.goal fl).1

/-- The completion condition a present value must meet, by goal. -/
def qualifies (goal : Option ℚ) (v : ℚ) : Prop :=
  match goal with
  | some g => g ≤ v
  | none => 0 < v

instance (goal : Option ℚ) (v : ℚ) : Decidable (qualifies goal v) :=
  match goal with
  | some g => inferInstanceAs (Decidable (g ≤ v))
  | none => inferInstanceAs (Decidable (0 < v))

lemma mem_filterLogsByDate (logs : List LogEntry) (start stop : Option ℤ)
    (l : LogEntry) :
    l ∈ filterLogsByDate logs start stop ↔
      l ∈ logs ∧ (∀ a ∈ start, a ≤ l.date) ∧ (∀ b ∈ stop, l.date ≤ b) := by
  cases start <;> cases stop <;>
      simp [filterLogsByDate, List.mem_filter, Option.mem_def, and_assoc] <;>
    tauto

lemma mem_booleanStep (acc : Finset ℤ) (l : LogEntry) (d : ℤ) :
    d ∈ booleanStep acc l ↔
      d ∈ acc ∨ ((∃ v, l.value = some v ∧ (1 : ℚ) ≤ v) ∧ l.date = d) := by
  cases hlv : l.value with
  | none => simp [booleanStep, hlv]
  | some v =>
      by_cases h1 : (1 : ℚ) ≤ v
      · simp only [booleanStep, hlv, if_pos h1, Finset.mem_insert]
        constructor
        · rintro (rfl | hd)
          · exact Or.inr ⟨⟨v, rfl, h1⟩, rfl⟩
          · exact Or.inl hd
        · rintro (hd | ⟨_, rfl⟩)
          · exact Or.inr hd
          · exact Or.inl rfl
      · simp only [booleanStep, hlv, if_neg h1]
        constructor
        · exact Or.inl
        · rintro (hd | ⟨⟨v', hv', h1'⟩, rfl⟩)
          · exact hd
          · injection hv' with h
            subst h
            exact absurd h1' h1

lemma boolFold_mem (fl : List LogEntry) (acc : Finset ℤ) (d : ℤ) :
    d ∈ fl.foldl booleanStep acc ↔
      d ∈ acc ∨ ∃ l, l ∈ fl ∧ (∃ v, l.value = some v ∧ (1 : ℚ) ≤ v) ∧ l.date = d := by
  induction fl generalizing acc with
  | nil => simp
  | cons l fl ih =>
      rw [List.foldl_cons, ih, mem_booleanStep]
      simp only [List.mem_cons]
      constructor
      · rintro ((hd | hq) | ⟨l', hl', hq', hd'⟩)
        · exact Or.inl hd
        · exact Or.inr ⟨l, Or.inl rfl, hq.1, hq.2⟩
        · exact Or.inr ⟨l', Or.inr hl', hq', hd'⟩
      · rintro (hd | ⟨l', hl' | hl', hq', hd'⟩)
        · exact Or.inl (Or.inl hd)
        · exact Or.inl (Or.inr ⟨hl' ▸ hq', hl' ▸ hd'⟩)
        · exact Or.inr ⟨l', hl', hq', hd'⟩

lemma mem_numericStep (goal : Option ℚ) (acc : Finset ℤ × List ℚ) (l : LogEntry)
    (d : ℤ) :
    d ∈ (numericStep goal acc l).1 ↔
      d ∈ acc.1 ∨ ((∃ v, l.value = some v ∧ qualifies goal v) ∧ l.date = d) := by
  cases hlv : l.value with
  | none => simp [numericStep, hlv]
  | some v =>
      have hfst : (numericStep goal acc l).1 =
          if qualifies goal v then insert l.date acc.1 else acc.1 := by
        cases goal with
        | some g =>
            by_cases hg' : g ≤ v
            · simp [numericStep, hlv, qualifies, hg']
            · simp [numericStep, hlv, qualifies, hg']
        | none =>
            by_cases hg' : (0 : ℚ) < v
            · simp [numericStep, hlv, qualifies, hg']
            · simp [numericStep, hlv, qualifies, hg']
      rw [hfst]
      by_cases hg : qualifies goal v
      · simp only [if_pos hg, Finset.mem_insert]
        constructor
        · rintro (rfl | hd)
          · exact Or.inr ⟨⟨v, rfl, hg⟩, rfl⟩
          · exact Or.inl hd
        · rintro (hd | ⟨_, rfl⟩)
          · exact Or.inr hd
          · exact Or.inl rfl
      · simp only [if_neg hg]
        constructor
        · exact Or.inl
        · rintro (hd | ⟨⟨w, hw, hgw⟩, rfl⟩)
          · exact hd
          · injection hw with hw
            subst hw
            exact absurd hgw hg

lemma numFold_mem (goal : Option ℚ) (fl : List LogEntry) (acc : Finset ℤ × List ℚ)
    (d : ℤ) :
    d ∈ (fl.foldl (numericStep goal) acc).1 ↔
      d ∈ acc.1 ∨ ∃ l, l ∈ fl ∧ (∃ v, l.value = some v ∧ qualifies goal v) ∧ l.date = d := by
  induction fl generalizing acc with
  | nil => simp
  | cons l fl ih =>
      rw [List.foldl_cons, ih, mem_numericStep]
      simp only [List.mem_cons]
      constructor
      · rintro ((hd | hq) | ⟨l', hl', hq', hd'⟩)
        · exact Or.inl hd
        · exact Or.inr ⟨l, Or.inl rfl, hq.1, hq.2⟩
        · exact Or.inr ⟨l', Or.inr hl', hq', hd'⟩
      · rintro (hd | ⟨l', hl' | hl', hq', hd'⟩)
        · exact Or.inl (Or.inl hd)
        · exact Or.inl (Or.inr ⟨hl' ▸ hq', hl' ▸ hd'⟩)
        · exact Or.inr ⟨l', hl', hq', hd'⟩

lemma numFold_snd (goal : Option ℚ) (fl : List LogEntry) (acc : Finset ℤ × List ℚ) :
    (fl.foldl (numericStep goal) acc).2 = acc.2 ++ fl.filterMap (fun l => l.value) := by
  induction fl generalizing acc with
  | nil => simp
  | cons l fl ih =>
      rw [List.foldl_cons, ih]
      cases hlv : l.value with
      | none => simp [numericStep, hlv, List.filterMap_cons]
      | some v =>
          have hstep : (numericStep goal acc l).2 = acc.2 ++ [v] := by
            cases goal <;> simp only [numericStep, hlv] <;> split <;> rfl
          rw [hstep]
          simp [List.filterMap_cons, hlv]

lemma booleanStep_card (acc : Finset ℤ) (l : LogEntry) :
    (booleanStep acc l).card ≤ acc.card + 1 := by
  cases hlv : l.value with
  | none => simp [booleanStep, hlv]
  | some v =>
      simp only [booleanStep, hlv]
      split
      · exact Finset.card_insert_le _ _
      · omega

lemma boolFold_card (fl : List LogEntry) (acc : Finset ℤ) :
    (fl.foldl booleanStep acc).card ≤ acc.card + fl.length := by
  induction fl generalizing acc with
  | nil => simp
  | cons l fl ih =>
      rw [List.foldl_cons]
      calc (fl.foldl booleanStep (booleanStep acc l)).card
          ≤ (booleanStep acc l).card + fl.length := ih _
        _ ≤ acc.card + 1 + fl.length := by
            have := booleanStep_card acc l
            omega
        _ = acc.card + (l :: fl).length := by simp; omega

lemma numericStep_card (goal : Option ℚ) (acc : Finset ℤ × List ℚ) (l : LogEntry) :
    (numericStep goal acc l).1.card ≤ acc.1.card + 1 := by
  cases hlv : l.value with
  | none => simp [numericStep, hlv]
  | some v =>
      cases goal <;> simp only [numericStep, hlv] <;> split <;>
        first
          | exact Finset.card_insert_le _ _
          | exact Nat.le_succ _

lemma numFold_card (goal : Option ℚ) (fl : List LogEntry) (acc : Finset ℤ × List ℚ) :
    (fl.foldl (numericStep goal) acc).1.card ≤ acc.1.card + fl.length := by
  induction fl generalizing acc with
  | nil => simp
  | cons l fl ih =>
      rw [List.foldl_cons]
      calc (fl.foldl (numericStep goal) (numericStep goal acc l)).1.card
          ≤ (numericStep goal acc l).1.card + fl.length := ih _
        _ ≤ acc.1.card + 1 + fl.length := by
            have := numericStep_card goal acc l
            omega
        _ = acc.1.card + (l :: fl).length := by simp; omega

lemma totalDays_eq (l : List LogEntry) :
    (if l.isEmpty then 0 else l.length) = l.length := by
  cases l <;> simp

lemma rateQ_bounds (c d : ℕ) (h : c ≤ d) :
    0 ≤ (if 0 < d then (c : ℚ) / (d : ℚ) else 0) ∧
      (if 0 < d then (c : ℚ) / (d : ℚ) else 0) ≤ 1 := by
  split
  · rename_i hd
    constructor
    · positivity
    · rw [div_le_one (by exact_mod_cast hd)]
      exact_mod_cast h
  · exact ⟨le_refl 0, zero_le_one⟩

lemma booleanCalculate_fields (habit : Habit) (logs : List LogEntry)
    (start stop : Option ℤ) (today : ℤ) :
    (booleanCalculate habit logs start stop today).total_days_tracked
        = (filterLogsByDate logs start stop).length ∧
      (booleanCalculate habit logs start stop today).total_completions
        = (booleanCompletedDates (filterLogsByDate logs start stop)).card ∧
      (booleanCalculate habit logs start stop today).completion_rate
        = (if 0 < (filterLogsByDate logs start stop).length
           then ((booleanCompletedDates (filterLogsByDate logs start stop)).card : ℚ)
                  / ((filterLogsByDate logs start stop).length : ℚ)
           else 0) ∧
      (booleanCalculate habit logs start stop today).average_value = none ∧
      (booleanCalculate habit logs start stop today).current_streak
        = (calculateStreaks (booleanCompletedDates (filterLogsByDate logs start stop)) today).1 ∧
      (booleanCalculate habit logs start stop today).longest_streak
        = (calculateStreaks (booleanCompletedDates (filterLogsByDate logs start stop)) today).2 := by
  unfold booleanCalculate
  simp only [totalDays_eq]
  refine ⟨?_, ?_, ?_, ?_, ?_, ?_⟩ <;> trivial

lemma numericCalculate_fields (habit : Habit) (logs : List LogEntry)
    (start stop : Option ℤ) (today : ℤ) :
    (numericCalculate habit logs start stop today).total_days_tracked
        = (filterLogsByDate logs start stop).length ∧
      (numericCalculate habit logs start stop today).total_completions
        = (numericAccum habit.goal (filterLogsByDate logs start stop)).1.card ∧
      (numericCalculate habit logs start stop today).completion_rate
        = (if 0 < (filterLogsByDate logs start stop).length
           then ((numericAccum habit.goal (filterLogsByDate logs start stop)).1.card : ℚ)
                  / ((filterLogsByDate logs start stop).length : ℚ)
           else 0) ∧
      (numericCalculate habit logs start stop today).average_value
        = (if (numericAccum habit.goal (filterLogsByDate logs start stop)).2.isEmpty
           then none
           else some ((numericAccum habit.goal (filterLogsByDate logs start stop)).2.sum
                  / ((numericAccum habit.goal (filterLogsByDate logs start stop)).2.length : ℚ))) ∧
      (numericCalculate habit logs start stop today).current_streak
        = (calculateStreaks (numericAccum habit.goal (filterLogsByDate logs start stop)).1 today).1 ∧
      (numericCalculate habit logs start stop today).longest_streak
        = (calculateStreaks (numericAccum habit.goal (filterLogsByDate logs start stop)).1 today).2 := by
  unfold numericCalculate
  simp only [totalDays_eq]
  refine ⟨?_, ?_, ?_, ?_, ?_, ?_⟩ <;> trivial

lemma booleanCompleted_card_le (fl : List LogEntry) :
    (booleanCompletedDates fl).card ≤ fl.length := by
  have := boolFold_card fl ∅
  simpa [booleanCompletedDates] using this

lemma numericCompleted_card_le (goal : Option ℚ) (fl : List LogEntry) :
    (numericAccum goal fl).1.card ≤ fl.length := by
  have := numFold_card goal fl (∅, [])
  simpa [numericAccum] using this

/-- C1: after filtering logs to the (optional, inclusive) window, an entry
marks its date as completed exactly when its value is present and: `≥ 1` for
a boolean habit, `≥ goal` for a numeric habit with a goal, `> 0` for a
numeric habit without a goal; the completed dates are collected into a
`Finset`, so duplicate qualifying dates count once. -/
theorem habits_c1 (logs : List LogEntry) (start stop : Option ℤ) (g : ℚ) (d : ℤ) :
    (∀ l : LogEntry, l ∈ filterLogsByDate logs start stop ↔
        l ∈ logs ∧ (∀ a ∈ start, a ≤ l.date) ∧ (∀ b ∈ stop, l.date ≤ b)) ∧
      (d ∈ booleanCompletedDates (filterLogsByDate logs start stop) ↔
        ∃ l, l ∈ filterLogsByDate logs start stop ∧
          (∃ v, l.value = some v ∧ (1 : ℚ) ≤ v) ∧ l.date = d) ∧
      (d ∈ (numericAccum (some g) (filterLogsByDate logs start stop)).1 ↔
        ∃ l, l ∈ filterLogsByDate logs start stop ∧
          (∃ v, l.value = some v ∧ g ≤ v) ∧ l.date = d) ∧
      (d ∈ (numericAccum none (filterLogsByDate logs start stop)).1 ↔
        ∃ l, l ∈ filterLogsByDate logs start stop ∧
          (∃ v, l.value = some v ∧ 0 < v) ∧ l.date = d) := by
  refine ⟨fun l => mem_filterLogsByDate logs start stop l, ?_, ?_, ?_⟩
  · simpa [booleanCompletedDates] using
      boolFold_mem (filterLogsByDate logs start stop) ∅ d
  · simpa [numericAccum, qualifies] using
      numFold_mem (some g) (filterLogsByDate logs start stop) (∅, []) d
  · simpa [numericAccum, qualifies] using
      numFold_mem none (filterLogsByDate logs start stop) (∅, []) d

/-- C3: for every habit (either type), log list and window, the completion
rate lies in `[0, 1]`; `total_days_tracked` is the number of filtered
entries, `total_completions` the number of distinct completed dates, and
the rate equals `total_completions / total_days_tracked` when the latter is
positive, else `0`. -/
theorem habits_c3 (habit : Habit) (logs : List LogEntry) (start stop : Option ℤ)
    (today : ℤ) :
    0 ≤ (computeStatistics habit logs start stop today).completion_rate ∧
      (computeStatistics habit logs start stop today).completion_rate ≤ 1 ∧
      (computeStatistics habit logs start stop today).total_days_tracked
        = (filterLogsByDate logs start stop).length ∧
      (computeStatistics habit logs start stop today).total_completions
        = (completedDatesOf habit (filterLogsByDate logs start stop)).card ∧
      (computeStatistics habit logs start stop today).completion_rate
        = (if 0 < (computeStatistics habit logs start stop today).total_days_tracked
           then ((computeStatistics habit logs start stop today).total_completions : ℚ)
                  / ((computeStatistics habit logs start stop today).total_days_tracked : ℚ)
           else 0) := by
  cases htype : habit.type with
  | boolean =>
      have hf := booleanCalculate_fields habit logs start stop today
      have hcard := booleanCompleted_card_le (filterLogsByDate logs start stop)
      have hrate := rateQ_bounds
        (booleanCompletedDates (filterLogsByDate logs start stop)).card
        (filterLogsByDate logs start stop).length hcard
      have hcs : computeStatistics habit logs start stop today
          = booleanCalculate habit logs start stop today := by
        unfold computeStatistics
        rw [htype]
      rw [hcs]
      rw [hf.1, hf.2.1, hf.2.2.1]
      refine ⟨hrate.1, hrate.2, rfl, ?_, rfl⟩
      unfold completedDatesOf
      rw [htype]
  | numeric =>
      have hf := numericCalculate_fields habit logs start stop today
      have hcard := numericCompleted_card_le habit.goal (filterLogsByDate logs start stop)
      have hrate := rateQ_bounds
        (numericAccum habit.goal (filterLogsByDate logs start stop)).1.card
        (filterLogsByDate logs start stop).length hcard
      have hcs : computeStatistics habit logs start stop today
          = numericCalculate habit logs start stop today := by
        unfold computeStatistics
        rw [htype]
      rw [hcs]
      rw [hf.1, hf.2.1, hf.2.2.1]
      refine ⟨hrate.1, hrate.2, rfl, ?_, rfl⟩
      unfold completedDatesOf
      rw [htype]

/-- C5: for a numeric habit, `average_value` is the arithmetic mean of all
present values among the filtered entries — whether or not they meet the
completion rule — and is `none` exactly when no filtered entry carries a
value; a boolean habit's `average_value` is always `none`. -/
theorem habits_c5 (habit : Habit) (logs : List LogEntry) (start stop : Option ℤ)
    (today : ℤ) :
    ((numericCalculate habit logs start stop today).average_value
        = (if ((filterLogsByDate logs start stop).filterMap (fun l => l.value)).isEmpty
           then none
           else some (((filterLogsByDate logs start stop).filterMap (fun l => l.value)).sum
                  / (((filterLogsByDate logs start stop).filterMap (fun l => l.value)).length : ℚ)))) ∧
      ((numericCalculate habit logs start stop today).average_value = none ↔
        ∀ l ∈ filterLogsByDate logs start stop, l.value = none) ∧
      (booleanCalculate habit logs start stop today).average_value = none := by
  have hvals : (numericAccum habit.goal (filterLogsByDate logs start stop)).2
      = (filterLogsByDate logs start stop).filterMap (fun l => l.value) := by
    simpa [numericAccum] using
      numFold_snd habit.goal (filterLogsByDate logs start stop) (∅, [])
  have havg := (numericCalculate_fields habit logs start stop today).2.2.2.1
  rw [hvals] at havg
  refine ⟨havg, ?_, (booleanCalculate_fields habit logs start stop today).2.2.2.1⟩
  rw [havg]
  by_cases he : ((filterLogsByDate logs start stop).filterMap (fun l => l.value)).isEmpty
  · rw [List.isEmpty_iff, List.filterMap_eq_nil_iff] at he
    simp only [List.isEmpty_iff, List.filterMap_eq_nil_iff, he, if_pos]
    simpa using he
  · rw [if_neg he]
    rw [List.isEmpty_iff, List.filterMap_eq_nil_iff] at he
    simp only [reduceCtorEq, false_iff]
    intro hall
    exact he hall

lemma csa_mem (c : Finset ℤ) :
    ∀ (fuel : ℕ) (cursor : ℤ) (k : ℕ),
      k < currentStreakAux c fuel cursor → cursor - (k : ℤ) ∈ c := by
  intro fuel
  induction fuel with
  | zero =>
      intro cursor k hk
      simp [currentStreakAux] at hk
  | succ f ih =>
      intro cursor k hk
      by_cases hc : cursor ∈ c
      · simp only [currentStreakAux, if_pos hc] at hk
        cases k with
        | zero => simpa using hc
        | succ j =>
            have hj := ih (cursor - 1) j (by omega)
            have heq : cursor - ((j + 1 : ℕ) : ℤ) = cursor - 1 - (j : ℤ) := by
              push_cast
              ring
            rw [heq]
            exact hj
      · simp only [currentStreakAux, if_neg hc] at hk
        omega

lemma csa_stop (c : Finset ℤ) :
    ∀ (fuel : ℕ) (cursor : ℤ),
      currentStreakAux c fuel cursor < fuel →
        cursor - (currentStreakAux c fuel cursor : ℤ) ∉ c := by
  intro fuel
  induction fuel with
  | zero =>
      intro cursor h
      omega
  | succ f ih =>
      intro cursor h
      by_cases hc : cursor ∈ c
      · simp only [currentStreakAux, if_pos hc] at h ⊢
        have hlt : currentStreakAux c f (cursor - 1) < f := by omega
        have hstop := ih (cursor - 1) hlt
        have heq : cursor - ((currentStreakAux c f (cursor - 1) + 1 : ℕ) : ℤ)
            = cursor - 1 - (currentStreakAux c f (cursor - 1) : ℤ) := by
          push_cast
          ring
        rw [heq]
        exact hstop
      · simp only [currentStreakAux, if_neg hc]
        simpa using hc

lemma csa_le_card (c : Finset ℤ) (fuel : ℕ) (cursor : ℤ) :
    currentStreakAux c fuel cursor ≤ c.card := by
  have hmap : ∀ k ∈ Finset.range (currentStreakAux c fuel cursor),
      cursor - (k : ℤ) ∈ c :=
    fun k hk => csa_mem c fuel cursor k (Finset.mem_range.mp hk)
  have hinj : Set.InjOn (fun k : ℕ => cursor - (k : ℤ))
      (Finset.range (currentStreakAux c fuel cursor)) := by
    intro a _ b _ hab
    simp only at hab
    omega
  calc currentStreakAux c fuel cursor
      = (Finset.range (currentStreakAux c fuel cursor)).card :=
        (Finset.card_range _).symm
    _ ≤ c.card := Finset.card_le_card_of_injOn _ hmap hinj

lemma currentStreak_spec (c : Finset ℤ) (today : ℤ) :
    (∀ k : ℕ, k < currentStreakAux c (c.card + 1) today → today - (k : ℤ) ∈ c) ∧
      today - (currentStreakAux c (c.card + 1) today : ℤ) ∉ c :=
  ⟨fun k hk => csa_mem c _ today k hk,
   csa_stop c _ today (Nat.lt_succ_of_le (csa_le_card c _ today))⟩

/-- Invariant of the longest-streak scan: `current` is the exact length of
the run of consecutive dates ending at `prev`, `longest` is at least the
length of every run contained in `c` that ends at or before `prev`, and the
remaining sorted list `rest` holds exactly the elements of `c` above
`prev`.  The conclusion: the final value is the length of some run in `c`
and an upper bound for every run in `c`. -/
lemma scanAux_run (c : Finset ℤ) :
    ∀ (rest : List ℤ) (prev : ℤ) (current longest : ℕ),
      (∀ x ∈ rest, x ∈ c) →
      List.Pairwise (· < ·) (prev :: rest) →
      (∀ x ∈ c, prev < x → x ∈ rest) →
      (∀ k : ℕ, k < current → prev - (k : ℤ) ∈ c) →
      prev - (current : ℤ) ∉ c →
      current ≤ longest →
      (∀ (e : ℤ) (n : ℕ), (∀ k : ℕ, k < n → e + (k : ℤ) ∈ c) →
        e + (n : ℤ) ≤ prev + 1 → n ≤ longest) →
      (∃ e : ℤ, ∀ k : ℕ, k < longest → e + (k : ℤ) ∈ c) →
      (∃ e : ℤ, ∀ k : ℕ, k < scanAux prev current longest rest → e + (k : ℤ) ∈ c) ∧
        (∀ (e : ℤ) (n : ℕ), (∀ k : ℕ, k < n → e + (k : ℤ) ∈ c) →
          n ≤ scanAux prev current longest rest) := by
  intro rest
  induction rest with
  | nil =>
      intro prev current longest h1 h2 h3 h4 h5 h6 h7 h8
      refine ⟨h8, ?_⟩
      intro e n hrun
      cases n with
      | zero => exact Nat.zero_le _
      | succ m =>
          have htop : e + (m : ℤ) ∈ c := hrun m (Nat.lt_succ_self m)
          have hle : e + (m : ℤ) ≤ prev := by
            by_contra hgt
            push_neg at hgt
            exact absurd (h3 _ htop hgt) (List.not_mem_nil _)
          exact h7 e (m + 1) hrun (by push_cast; omega)
  | cons d rest ih =>
      intro prev current longest h1 h2 h3 h4 h5 h6 h7 h8
      have hdc : d ∈ c := h1 d (List.mem_cons_self d rest)
      have hpw := List.pairwise_cons.mp h2
      have hpd : prev < d := hpw.1 d (List.mem_cons_self d rest)
      have hrest_gt : ∀ x ∈ rest, d < x := (List.pairwise_cons.mp hpw.2).1
      have hgap : ∀ x ∈ c, prev < x → d ≤ x := by
        intro x hx hpx
        rcases List.mem_cons.mp (h3 x hx hpx) with rfl | hxr
        · exact le_refl x
        · exact le_of_lt (hrest_gt x hxr)
      have h1' : ∀ x ∈ rest, x ∈ c := fun x hx => h1 x (List.mem_cons_of_mem d hx)
      have h3' : ∀ x ∈ c, d < x → x ∈ rest := by
        intro x hx hdx
        rcases List.mem_cons.mp (h3 x hx (hpd.trans hdx)) with rfl | hxr
        · exact absurd hdx (lt_irrefl x)
        · exact hxr
      by_cases hstep : d - prev = 1
      · -- consecutive date: the running counter is extended
        have hscan : scanAux prev current longest (d :: rest)
            = scanAux d (current + 1) (max longest (current + 1)) rest := by
          simp only [scanAux]
          rw [if_pos hstep]
        have h4' : ∀ k : ℕ, k < current + 1 → d - (k : ℤ) ∈ c := by
          intro k hk
          cases k with
          | zero => simpa using hdc
          | succ j =>
              have heq : d - ((j + 1 : ℕ) : ℤ) = prev - (j : ℤ) := by
                push_cast
                omega
              rw [heq]
              exact h4 j (by omega)
        have h5' : d - ((current + 1 : ℕ) : ℤ) ∉ c := by
          have heq : d - ((current + 1 : ℕ) : ℤ) = prev - (current : ℤ) := by
            push_cast
            omega
          rw [heq]
          exact h5
        have h7' : ∀ (e : ℤ) (n : ℕ), (∀ k : ℕ, k < n → e + (k : ℤ) ∈ c) →
            e + (n : ℤ) ≤ d + 1 → n ≤ max longest (current + 1) := by
          intro e n hrun hend
          by_cases hcase : e + (n : ℤ) ≤ prev + 1
          · exact le_trans (h7 e n hrun hcase) (le_max_left _ _)
          · push_neg at hcase
            cases n with
            | zero => exact Nat.zero_le _
            | succ m =>
                have htop : e + (m : ℤ) ∈ c := hrun m (Nat.lt_succ_self m)
                push_cast at hcase hend
                have h1d : e + (m : ℤ) = d := by
                  have hge := hgap _ htop (by omega)
                  omega
                have hnle : m ≤ current := by
                  by_contra hgt
                  push_neg at hgt
                  have hmem := hrun (m - (current + 1)) (by omega)
                  have heq : e + ((m - (current + 1) : ℕ) : ℤ)
                      = prev - (current : ℤ) := by
                    omega
                  rw [heq] at hmem
                  exact h5 hmem
                exact le_trans (by omega) (le_max_right longest (current + 1))
        have h8' : ∃ e : ℤ, ∀ k : ℕ, k < max longest (current + 1) →
            e + (k : ℤ) ∈ c := by
          rcases Nat.le_total longest (current + 1) with hml | hml
          · rw [max_eq_right hml]
            refine ⟨d - (current : ℤ), ?_⟩
            intro k hk
            have heq : d - (current : ℤ) + (k : ℤ) = d - ((current - k : ℕ) : ℤ) := by
              omega
            rw [heq]
            exact h4' (current - k) (by omega)
          · rw [max_eq_left hml]
            exact h8
        rw [hscan]
        exact ih d (current + 1) (max longest (current + 1)) h1' hpw.2 h3' h4' h5'
          (le_max_right _ _) h7' h8'
      · -- gap: the running counter resets to 1
        have hd2 : prev + 2 ≤ d := by omega
        have hd1 : (d - 1 : ℤ) ∉ c := by
          intro hmem
          have := hgap _ hmem (by omega)
          omega
        have hscan : scanAux prev current longest (d :: rest)
            = scanAux d 1 (max longest 1) rest := by
          simp only [scanAux]
          rw [if_neg hstep]
        have h4' : ∀ k : ℕ, k < 1 → d - (k : ℤ) ∈ c := by
          intro k hk
          have : k = 0 := by omega
          subst this
          simpa using hdc
        have h5' : d - ((1 : ℕ) : ℤ) ∉ c := by
          simpa using hd1
        have h7' : ∀ (e : ℤ) (n : ℕ), (∀ k : ℕ, k < n → e + (k : ℤ) ∈ c) →
            e + (n : ℤ) ≤ d + 1 → n ≤ max longest 1 := by
          intro e n hrun hend
          by_cases hcase : e + (n : ℤ) ≤ prev + 1
          · exact le_trans (h7 e n hrun hcase) (le_max_left _ _)
          · push_neg at hcase
            cases n with
            | zero => exact Nat.zero_le _
            | succ m =>
                have htop : e + (m : ℤ) ∈ c := hrun m (Nat.lt_succ_self m)
                push_cast at hcase hend
                have h1d : e + (m : ℤ) = d := by
                  have hge := hgap _ htop (by omega)
                  omega
                have hm0 : m = 0 := by
                  by_contra hm
                  have hmem := hrun (m - 1) (by omega)
                  have heq : e + ((m - 1 : ℕ) : ℤ) = d - 1 := by
                    omega
                  rw [heq] at hmem
                  exact hd1 hmem
                subst hm0
                exact le_trans (by omega) (le_max_right longest 1)
        have h8' : ∃ e : ℤ, ∀ k : ℕ, k < max longest 1 → e + (k : ℤ) ∈ c := by
          rcases Nat.le_total longest 1 with hml | hml
          · rw [max_eq_right hml]
            refine ⟨d, ?_⟩
            intro k hk
            have : k = 0 := by omega
            subst this
            simpa using hdc
          · rw [max_eq_left hml]
            exact h8
        rw [hscan]
        exact ih d 1 (max longest 1) h1' hpw.2 h3' h4' h5'
          (le_max_right _ _) h7' h8'

lemma run_le_card (c : Finset ℤ) (e : ℤ) (n : ℕ)
    (hrun : ∀ k : ℕ, k < n → e + (k : ℤ) ∈ c) : n ≤ c.card := by
  have hmap : ∀ k ∈ Finset.range n, e + (k : ℤ) ∈ c :=
    fun k hk => hrun k (Finset.mem_range.mp hk)
  have hinj : Set.InjOn (fun k : ℕ => e + (k : ℤ)) (Finset.range n) := by
    intro a _ b _ hab
    simp only at hab
    omega
  calc n = (Finset.range n).card := (Finset.card_range n).symm
    _ ≤ c.card := Finset.card_le_card_of_injOn _ hmap hinj

lemma longestStreakOf_spec (c : Finset ℤ) :
    (∃ e : ℤ, ∀ k : ℕ, k < longestStreakOf c → e + (k : ℤ) ∈ c) ∧
      (∀ (e : ℤ) (n : ℕ), (∀ k : ℕ, k < n → e + (k : ℤ) ∈ c) →
        n ≤ longestStreakOf c) := by
  cases hsort : Finset.sort (· ≤ ·) c with
  | nil =>
      have hc : c = ∅ := by
        have hlen := Finset.length_sort (α := ℤ) (· ≤ ·) (s := c)
        rw [hsort] at hlen
        simp only [List.length_nil] at hlen
        exact Finset.card_eq_zero.mp hlen.symm
      have hval : longestStreakOf c = 0 := by
        unfold longestStreakOf
        rw [hsort]
      rw [hval]
      constructor
      · exact ⟨0, fun k hk => absurd hk (by omega)⟩
      · intro e n hrun
        cases n with
        | zero => exact le_refl 0
        | succ m =>
            have h0 := hrun 0 (by omega)
            rw [hc] at h0
            simp at h0
  | cons d rest =>
      have hval : longestStreakOf c = scanAux d 1 1 rest := by
        unfold longestStreakOf
        rw [hsort]
      have hmem : ∀ x, x ∈ d :: rest ↔ x ∈ c := by
        intro x
        rw [← hsort]
        exact Finset.mem_sort _
      have hpw : List.Pairwise (· < ·) (d :: rest) := by
        have hsorted := Finset.sort_sorted_lt c
        rw [hsort] at hsorted
        exact hsorted
      have hdc : d ∈ c := (hmem d).mp (List.mem_cons_self d rest)
      have hdmin : ∀ x ∈ c, d ≤ x := by
        intro x hx
        rcases List.mem_cons.mp ((hmem x).mpr hx) with rfl | hxr
        · exact le_refl x
        · exact le_of_lt ((List.pairwise_cons.mp hpw).1 x hxr)
      rw [hval]
      apply scanAux_run c rest d 1 1
      · intro x hx
        exact (hmem x).mp (List.mem_cons_of_mem d hx)
      · exact hpw
      · intro x hx hdx
        rcases List.mem_cons.mp ((hmem x).mpr hx) with rfl | hxr
        · exact absurd hdx (lt_irrefl x)
        · exact hxr
      · intro k hk
        have : k = 0 := by omega
        subst this
        simpa using hdc
      · have h1 : ((1 : ℕ) : ℤ) = 1 := by norm_num
        rw [h1]
        intro hmem1
        have := hdmin _ hmem1
        omega
      · exact le_refl 1
      · intro e n hrun hend
        cases n with
        | zero => exact Nat.zero_le _
        | succ m =>
            by_contra hgt
            push_neg at hgt
            have h0 : e + ((0 : ℕ) : ℤ) ∈ c := hrun 0 (by omega)
            have hd0 := hdmin _ h0
            push_cast at hd0 hend
            omega
      · refine ⟨d, ?_⟩
        intro k hk
        have : k = 0 := by omega
        subst this
        simpa using hdc

lemma calculateStreaks_empty (today : ℤ) : calculateStreaks ∅ today = (0, 0) := by
  simp [calculateStreaks]

lemma calculateStreaks_of_ne (c : Finset ℤ) (today : ℤ) (hc : c ≠ ∅) :
    calculateStreaks c today
      = (currentStreakAux c (c.card + 1) today, longestStreakOf c) := by
  rw [calculateStreaks, if_neg hc]

lemma longest_ge_current (c : Finset ℤ) (today : ℤ) :
    (calculateStreaks c today).1 ≤ (calculateStreaks c today).2 := by
  by_cases hc : c = ∅
  · subst hc
    rw [calculateStreaks_empty]
  · rw [calculateStreaks_of_ne c today hc]
    dsimp only
    rcases hval : currentStreakAux c (c.card + 1) today with _ | j
    · exact Nat.zero_le _
    · apply (longestStreakOf_spec c).2 (today - (j : ℤ)) (j + 1)
      intro k hk
      have hmem := csa_mem c (c.card + 1) today (j - k) (by omega)
      have heq : today - (j : ℤ) + (k : ℤ) = today - ((j - k : ℕ) : ℤ) := by
        omega
      rw [heq]
      exact hmem

/-- C2: the current streak counts the consecutive days ending at `today`
(walking backward, inclusive) that all lie in the completed-date set — in
particular it is `0` when `today` is not completed — and the longest streak,
computed by the ascending single scan, is exactly the length of the longest
run of consecutive dates contained in the set; an empty set yields `(0, 0)`. -/
theorem habits_c2 (c : Finset ℤ) (today : ℤ) :
    (∀ k : ℕ, k < (calculateStreaks c today).1 → today - (k : ℤ) ∈ c) ∧
      today - ((calculateStreaks c today).1 : ℤ) ∉ c ∧
      (today ∉ c → (calculateStreaks c today).1 = 0) ∧
      (∃ e : ℤ, ∀ k : ℕ, k < (calculateStreaks c today).2 → e + (k : ℤ) ∈ c) ∧
      (∀ (e : ℤ) (n : ℕ), (∀ k : ℕ, k < n → e + (k : ℤ) ∈ c) →
        n ≤ (calculateStreaks c today).2) ∧
      (c = ∅ → calculateStreaks c today = (0, 0)) := by
  by_cases hc : c = ∅
  · subst hc
    rw [calculateStreaks_empty]
    dsimp only
    refine ⟨?_, ?_, ?_, ?_, ?_, ?_⟩
    · intro k hk
      omega
    · simp
    · intro _
      rfl
    · exact ⟨0, fun k hk => absurd hk (by omega)⟩
    · intro e n hrun
      cases n with
      | zero => exact le_refl 0
      | succ m =>
          have h0 := hrun 0 (by omega)
          simp at h0
    · intro _
      rfl
  · rw [calculateStreaks_of_ne c today hc]
    dsimp only
    refine ⟨(currentStreak_spec c today).1, (currentStreak_spec c today).2, ?_,
      (longestStreakOf_spec c).1, (longestStreakOf_spec c).2, fun h => absurd h hc⟩
    intro htoday
    by_contra h0
    have hmem := (currentStreak_spec c today).1 0 (Nat.pos_of_ne_zero h0)
    simp only [Nat.cast_zero, sub_zero] at hmem
    exact htoday hmem

/-- The boolean habit of the spec's intended streak counterexample. -/
def c4Habit : Habit :=
  ⟨"h1", "run", none, none, .boolean, none, 0, none, []⟩

/-- Five consecutive daily logs (days 0–4) of value `1`, all before
`today = 10`. -/
def c4Logs : List LogEntry :=
  [⟨"l0", "h1", 0, some 1, 0⟩, ⟨"l1", "h1", 1, some 1, 0⟩,
   ⟨"l2", "h1", 2, some 1, 0⟩, ⟨"l3", "h1", 3, some 1, 0⟩,
   ⟨"l4", "h1", 4, some 1, 0⟩]

/-- C4 (counterexample): at the spec's intended witness — a historical
5-day streak, a window excluding `today` — the result is
`current_streak = 0`, `longest_streak = 5`, which *satisfies*
`longest_streak ≥ current_streak`; moreover no completed-date set at all
violates that inequality, so the claimed violating input does not exist. -/
theorem habits_c4_counterexample :
    (booleanCalculate c4Habit c4Logs none (some 5) 10).current_streak = 0 ∧
      (booleanCalculate c4Habit c4Logs none (some 5) 10).longest_streak = 5 ∧
      (booleanCalculate c4Habit c4Logs none (some 5) 10).current_streak
        ≤ (booleanCalculate c4Habit c4Logs none (some 5) 10).longest_streak ∧
      ¬ ∃ (c : Finset ℤ) (t : ℤ),
          (calculateStreaks c t).2 < (calculateStreaks c t).1 := by
  have hset : booleanCompletedDates (filterLogsByDate c4Logs none (some 5))
      = ({0, 1, 2, 3, 4} : Finset ℤ) := by
    decide
  have hne : ({0, 1, 2, 3, 4} : Finset ℤ) ≠ ∅ := by
    decide
  have hlongest : longestStreakOf ({0, 1, 2, 3, 4} : Finset ℤ) = 5 := by
    apply le_antisymm
    · rcases (longestStreakOf_spec ({0, 1, 2, 3, 4} : Finset ℤ)).1 with ⟨e, he⟩
      have hcard : ({0, 1, 2, 3, 4} : Finset ℤ).card = 5 := by decide
      have := run_le_card ({0, 1, 2, 3, 4} : Finset ℤ) e _ he
      omega
    · apply (longestStreakOf_spec ({0, 1, 2, 3, 4} : Finset ℤ)).2 0 5
      intro k hk
      have : k = 0 ∨ k = 1 ∨ k = 2 ∨ k = 3 ∨ k = 4 := by omega
      rcases this with rfl | rfl | rfl | rfl | rfl <;> decide
  have hlfield := (booleanCalculate_fields c4Habit c4Logs none (some 5) 10).2.2.2.2.2
  have hl5 : (booleanCalculate c4Habit c4Logs none (some 5) 10).longest_streak = 5 := by
    rw [hlfield, hset, calculateStreaks_of_ne _ _ hne]
    exact hlongest
  have hc0 : (booleanCalculate c4Habit c4Logs none (some 5) 10).current_streak = 0 := by
    decide
  refine ⟨hc0, hl5, ?_, ?_⟩
  · rw [hc0]
    exact Nat.zero_le _
  · rintro ⟨c, t, hlt⟩
    exact absurd hlt (not_lt.mpr (longest_ge_current c t))

/-- C4 (amended): for every completed-date set and wall-clock `today`,
`longest_streak ≥ current_streak` *does* hold — the intended witness only
shows that the current streak drops to `0` when today is not completed,
not a violation of the inequality. -/
theorem habits_c4 (c : Finset ℤ) (today : ℤ) :
    (calculateStreaks c today).1 ≤ (calculateStreaks c today).2 :=
  longest_ge_current c today

/-- `app/db/in_memory.py`: `InMemoryHabitRepository._storage`, a dict keyed
by `habit.id`, modelled as a list of habits looked up by id. -/
abbrev Store := List Habit

/-- Errors raised by the service / repository layer.  `notFound` is the
service's `ValueError("... not found")`, `keyError` the repository's
`KeyError`, `fuelOut` marks exhaustion of the modelling fuel of the
(unboundedly recursive) cascading delete. -/
inductive Err where
  | notFound
  | keyError
  | fuelOut
deriving DecidableEq, Repr

/-- `InMemoryHabitRepository.get`. -/
def storeGet (s : Store) (id : String) : Option Habit :=
  s.find? (fun x => x.id == id)

/-- Dict assignment at an existing key: replace the stored habit. -/
def storeReplace (s : Store) (key : String) (h : Habit) : Store :=
  s.map (fun x => if x.id == key then h else x)

/-- `InMemoryHabitRepository.add` (dict assignment `storage[habit.id] = habit`). -/
def storeAdd (s : Store) (h : Habit) : Store :=
  if (storeGet s h.id).isSome then storeReplace s h.id h else s ++ [h]

/-- `InMemoryHabitRepository.delete` (`dict.pop(id, None)`: idempotent). -/
def storeDelete (s : Store) (id : String) : Store :=
  s.filter (fun x => !(x.id == id))

/-- `InMemoryHabitRepository.update`: `KeyError` when the id is absent. -/
def repoUpdate (s : Store) (h : Habit) : Store × Option Err :=
  if (storeGet s h.id).isSome then (storeReplace s h.id h, none)
  else (s, some .keyError)

/-- `HabitService.create_habit`. -/
def createHabit (s : Store) (h : Habit) : Store := storeAdd s h

/-- `HabitService.get_habit`. -/
def getHabit (s : Store) (id : String) : Option Habit := storeGet s id

/-- The field assignments of `HabitService.update_habit`: only fields
present in the request are applied. -/
def applyUpdate (h : Habit) (u : HabitUpdate) : Habit :=
  let h1 := match u.name with
    | some n => { h with name := n }
    | none => h
  let h2 := match u.description with
    | some dsc => { h1 with description := some dsc }
    | none => h1
  let h3 := match u.category with
    | some cg => { h2 with category := some cg }
    | none => h2
  match u.goal with
  | some g => { h3 with goal := some g }
  | none => h3

/-- `HabitService.update_habit`. -/
def updateHabit (s : Store) (id : String) (u : HabitUpdate) : Store × Option Err :=
  match storeGet s id with
  | none => (s, some .notFound)
  | some h => repoUpdate s (applyUpdate h u)

/-- The `for subhabit_id in habit.subhabit_ids: self.delete_habit(...)` loop:
run `f` on each id in order, stopping at (and propagating) the first error,
keeping the store state reached so far. -/
def runDeletes (f : Store → String → Store × Option Err) :
    Store → List String → Store × Option Err
  | s, [] => (s, none)
  | s, id :: rest =>
      match f s id with
      | (s1, none) => runDeletes f s1 rest
      | (s1, some e) => (s1, some e)

/-- `HabitService.delete_habit`, with explicit recursion fuel: resolve the
habit (raising not-found if absent), recursively delete every listed
sub-habit id in order, then delete the habit itself. -/
def deleteHabitF : ℕ → Store → String → Store × Option Err
  | 0, s, _ => (s, some .fuelOut)
  | fuel + 1, s, id =>
      match storeGet s id with
      | none => (s, some .notFound)
      | some h =>
          match runDeletes (deleteHabitF fuel) s h.subhabit_ids with
          | (s1, none) => (storeDelete s1 id, none)
          | (s1, some e) => (s1, some e)

/-- `HabitService.add_subhabit`. -/
def addSubhabit (s : Store) (parentId : String) (sub : Habit) : Store × Option Err :=
  match storeGet s parentId with
  | none => (s, some .notFound)
  | some parent =>
      let sub2 := { sub with parent_id := some parentId }
      let parent2 := { parent with subhabit_ids := parent.subhabit_ids ++ [sub.id] }
      repoUpdate (storeAdd s sub2) parent2

/-- Stable insertion of a log entry into a date-sorted list (after entries
of equal date, matching Python's stable sort). -/
def insertByDate (l : LogEntry) : List LogEntry → List LogEntry
  | [] => [l]
  | x :: xs => if l.date ≤ x.date then l :: x :: xs else x :: insertByDate l xs

/-- Stable sort by date (`sorted(logs, key=lambda log: log.date)`). -/
def sortByDate : List LogEntry → List LogEntry
  | [] => []
  | x :: xs => insertByDate x (sortByDate xs)

/-- `InMemoryLogRepository.list_for_habit`. -/
def listForHabit (ls : List LogEntry) (habitId : String)
    (start stop : Option ℤ) : List LogEntry :=
  sortByDate (filterLogsByDate (ls.filter (fun l => l.habit_id == habitId)) start stop)

/-- `HabitService.record_log`; the fresh uuid and creation instant are
explicit parameters. -/
def recordLog (s : Store) (ls : List LogEntry) (habitId : String) (d : ℤ)
    (v : Option ℚ) (newId : String) (now : ℤ) :
    (Store × List LogEntry) × Option Err :=
  match storeGet s habitId with
  | none => ((s, ls), some .notFound)
  | some _ => ((s, ls ++ [⟨newId, habitId, d, v, now⟩]), none)

/-- `HabitService.get_logs`. -/
def getLogs (s : Store) (ls : List LogEntry) (habitId : String)
    (start stop : Option ℤ) : Except Err (List LogEntry) :=
  match storeGet s habitId with
  | none => .error .notFound
  | some _ => .ok (listForHabit ls habitId start stop)

/-- `HabitService.get_statistics`. -/
def getStatistics (s : Store) (ls : List LogEntry) (habitId : String)
    (start stop : Option ℤ) (today : ℤ) : Except Err StatisticsResult :=
  match storeGet s habitId with
  | none => .error .notFound
  | some habit =>
      .ok (computeStatistics habit (listForHabit ls habitId start stop) start stop today)

/-- The spec's data-model invariant for one stored habit: a set `parent_id`
references a stored habit, and every id in `subhabit_ids` references a
stored habit whose `parent_id` points back at this habit. -/
def habitOkB (s : Store) (h : Habit) : Bool :=
  (match h.parent_id with
   | none => true
   | some pid => (storeGet s pid).isSome) &&
    h.subhabit_ids.all (fun cid =>
      match storeGet s cid with
      | some ch => ch.parent_id == some h.id
      | none => false)

/-- The spec's data-model invariant for a whole store. -/
def storeInvariant (s : Store) : Prop := ∀ h ∈ s, habitOkB s h = true

instance (s : Store) : Decidable (storeInvariant s) :=
  inferInstanceAs (Decidable (∀ h ∈ s, habitOkB s h = true))

/-- Habit-store states reachable through the public service/API operations:
the empty store, habit creation (the API builds the habit with an arbitrary
`parent_id` from the payload and an empty `subhabit_ids`, with a fresh
uuid), add-subhabit, update, and cascading delete — including the states
these leave behind when they raise. -/
inductive Reachable : Store → Prop where
  | init : Reachable []
  | create (s : Store) (h : Habit) :
      Reachable s → h.subhabit_ids = [] → storeGet s h.id = none →
      Reachable (createHabit s h)
  | addSub (s : Store) (pid : String) (h : Habit) (s' : Store) (e : Option Err) :
      Reachable s → h.subhabit_ids = [] → storeGet s h.id = none →
      addSubhabit s pid h = (s', e) → Reachable s'
  | update (s : Store) (id : String) (u : HabitUpdate) (s' : Store) (e : Option Err) :
      Reachable s → updateHabit s id u = (s', e) → Reachable s'
  | delete (s : Store) (id : String) (fuel : ℕ) (s' : Store) (e : Option Err) :
      Reachable s → deleteHabitF fuel s id = (s', e) → Reachable s'

lemma deleteHabitF_succ (fuel : ℕ) (s : Store) (id : String) :
    deleteHabitF (fuel + 1) s id =
      (match storeGet s id with
       | none => (s, some .notFound)
       | some h =>
           match runDeletes (deleteHabitF fuel) s h.subhabit_ids with
           | (s1, none) => (storeDelete s1 id, none)
           | (s1, some e) => (s1, some e)) := rfl

lemma storeGet_some_id (s : Store) (id : String) (h : Habit)
    (hget : storeGet s id = some h) : h.id = id := by
  have := List.find?_some hget
  exact eq_of_beq this

lemma storeGet_delete_self (s : Store) (id : String) :
    storeGet (storeDelete s id) id = none := by
  induction s with
  | nil => rfl
  | cons x s ih =>
      by_cases hx : x.id == id
      · simpa [storeDelete, List.filter_cons, hx] using ih
      · simp only [storeDelete, List.filter_cons, hx, Bool.not_false, if_pos]
        simp only [storeGet, List.find?, hx]
        exact ih

lemma storeGet_delete_of_ne (s : Store) (id j : String) (hne : j ≠ id) :
    storeGet (storeDelete s id) j = storeGet s j := by
  induction s with
  | nil => rfl
  | cons x s ih =>
      by_cases hx : x.id == id
      · have hxj : (x.id == j) = false := by
          have : x.id = id := eq_of_beq hx
          subst this
          exact beq_eq_false_iff_ne.mpr fun hc => hne hc.symm
        simp only [storeDelete, List.filter_cons, hx, Bool.not_true, if_neg,
          Bool.false_eq_true, not_false_iff]
        rw [show storeGet (x :: s) j = storeGet s j by
          simp only [storeGet, List.find?, hxj]]
        exact ih
      · simp only [storeDelete, List.filter_cons, hx, Bool.not_false, if_pos]
        by_cases hxj : x.id == j
        · simp only [storeGet, List.find?, hxj]
        · simp only [storeGet, List.find?, hxj]
          exact ih

lemma storeDelete_absent (s : Store) (id j : String)
    (hs : storeGet s j = none) : storeGet (storeDelete s id) j = none := by
  by_cases hji : j = id
  · subst hji
    exact storeGet_delete_self s j
  · rw [storeGet_delete_of_ne s id j hji]
    exact hs

lemma storeGet_replace_self (s : Store) (key : String) (h : Habit)
    (hid : h.id = key) (hex : (storeGet s key).isSome) :
    storeGet (storeReplace s key h) key = some h := by
  induction s with
  | nil => simp [storeGet] at hex
  | cons x s ih =>
      by_cases hx : x.id == key
      · simp only [storeReplace, List.map_cons, if_pos hx]
        simp [storeGet, List.find?, hid]
      · simp only [storeReplace, List.map_cons, if_neg hx]
        have hxf : (x.id == key) = false := by simpa using hx
        simp only [storeGet, List.find?, hxf]
        apply ih
        simpa [storeGet, List.find?, hxf] using hex

lemma storeGet_replace_of_ne (s : Store) (key j : String) (h : Habit)
    (hid : h.id = key) (hne : j ≠ key) :
    storeGet (storeReplace s key h) j = storeGet s j := by
  induction s with
  | nil => rfl
  | cons x s ih =>
      by_cases hx : x.id == key
      · have hhj : (h.id == j) = false := by
          rw [hid]
          exact beq_eq_false_iff_ne.mpr fun hc => hne hc.symm
        have hxj : (x.id == j) = false := by
          have : x.id = key := eq_of_beq hx
          rw [this]
          exact beq_eq_false_iff_ne.mpr fun hc => hne hc.symm
        simp only [storeReplace, List.map_cons, if_pos hx, storeGet, List.find?,
          hhj, hxj]
        exact ih
      · by_cases hxj : x.id == j
        · simp only [storeReplace, List.map_cons, if_neg hx, storeGet, List.find?, hxj]
        · simp only [storeReplace, List.map_cons, if_neg hx, storeGet, List.find?, hxj]
          exact ih

lemma runDeletes_absent (f : Store → String → Store × Option Err) (j : String)
    (hf : ∀ (s : Store) (id : String),
      storeGet s j = none → storeGet (f s id).1 j = none) :
    ∀ (ids : List String) (s : Store), storeGet s j = none →
      storeGet (runDeletes f s ids).1 j = none := by
  intro ids
  induction ids with
  | nil =>
      intro s hs
      simpa [runDeletes] using hs
  | cons i rest ih =>
      intro s hs
      rcases hstep : f s i with ⟨s1, e⟩
      have hs1 : storeGet s1 j = none := by
        have := hf s i hs
        rw [hstep] at this
        exact this
      cases e with
      | none =>
          simp only [runDeletes, hstep]
          exact ih s1 hs1
      | some err =>
          simp only [runDeletes, hstep]
          exact hs1

lemma deleteHabitF_absent (j : String) :
    ∀ (fuel : ℕ) (s : Store) (id : String),
      storeGet s j = none → storeGet (deleteHabitF fuel s id).1 j = none := by
  intro fuel
  induction fuel with
  | zero =>
      intro s id hs
      simpa [deleteHabitF] using hs
  | succ f ih =>
      intro s id hs
      rcases hget : storeGet s id with _ | h
      · simp only [deleteHabitF, hget]
        exact hs
      · simp only [deleteHabitF, hget]
        rcases hrun : runDeletes (deleteHabitF f) s h.subhabit_ids with ⟨s1, e⟩
        have hs1 : storeGet s1 j = none := by
          have := runDeletes_absent (deleteHabitF f) j
            (fun s' id' hs' => ih s' id' hs') h.subhabit_ids s hs
          rw [hrun] at this
          exact this
        cases e with
        | none => exact storeDelete_absent s1 id j hs1
        | some err => exact hs1

lemma deleteHabitF_removes (fuel : ℕ) (s : Store) (id : String) (s' : Store)
    (h : deleteHabitF fuel s id = (s', none)) : storeGet s' id = none := by
  cases fuel with
  | zero => simp [deleteHabitF] at h
  | succ f =>
      rcases hget : storeGet s id with _ | hb
      · simp only [deleteHabitF, hget] at h
        simp at h
      · simp only [deleteHabitF, hget] at h
        rcases hrun : runDeletes (deleteHabitF f) s hb.subhabit_ids with ⟨s1, e⟩
        cases e with
        | none =>
            simp only [hrun] at h
            have hfst : storeDelete s1 id = s' := congrArg Prod.fst h
            rw [← hfst]
            exact storeGet_delete_self s1 id
        | some err =>
            simp only [hrun] at h
            simp at h

lemma runDeletes_removes (f : Store → String → Store × Option Err)
    (hdel : ∀ (s : Store) (id : String) (s' : Store),
      f s id = (s', none) → storeGet s' id = none)
    (habs : ∀ (s : Store) (id j : String),
      storeGet s j = none → storeGet (f s id).1 j = none) :
    ∀ (ids : List String) (s s' : Store),
      runDeletes f s ids = (s', none) → ∀ i ∈ ids, storeGet s' i = none := by
  intro ids
  induction ids with
  | nil =>
      intro s s' h i hi
      simp at hi
  | cons a rest ih =>
      intro s s' h i hi
      rcases hstep : f s a with ⟨s1, e⟩
      cases e with
      | some err =>
          rw [runDeletes, hstep] at h
          simp at h
      | none =>
          rw [runDeletes, hstep] at h
          dsimp only at h
          rcases List.mem_cons.mp hi with rfl | hirest
          · have h1 : storeGet s1 i = none := hdel s i s1 hstep
            have := runDeletes_absent f i (fun s0 id0 hs0 => habs s0 id0 i hs0)
              rest s1 h1
            rw [h] at this
            exact this
          · exact ih s1 s' h i hirest

lemma runDeletes_append (f : Store → String → Store × Option Err)
    (xs ys : List String) :
    ∀ s : Store, runDeletes f s (xs ++ ys) =
      (match runDeletes f s xs with
       | (s1, none) => runDeletes f s1 ys
       | (s1, some e) => (s1, some e)) := by
  induction xs with
  | nil => intro s; simp [runDeletes]
  | cons a xs ih =>
      intro s
      rcases hstep : f s a with ⟨s1, e⟩
      cases e with
      | none =>
          have hL : runDeletes f s (a :: xs ++ ys) = runDeletes f s1 (xs ++ ys) := by
            show runDeletes f s (a :: (xs ++ ys)) = runDeletes f s1 (xs ++ ys)
            simp only [runDeletes, hstep]
          have hR : runDeletes f s (a :: xs) = runDeletes f s1 xs := by
            simp only [runDeletes, hstep]
          rw [hL, hR, ih s1]
      | some err =>
          have hL : runDeletes f s (a :: xs ++ ys) = (s1, some err) := by
            show runDeletes f s (a :: (xs ++ ys)) = (s1, some err)
            simp only [runDeletes, hstep]
          have hR : runDeletes f s (a :: xs) = (s1, some err) := by
            simp only [runDeletes, hstep]
          rw [hL, hR]

/-- C6: cascading delete first resolves the habit, then recursively deletes
every id listed in its `subhabit_ids` in order (depth-first, pre-order),
then deletes the habit itself; in particular, deleting a parent whose single
sub-habit is a leaf removes both parent and child from the store, and
getting either id afterwards returns `none`. -/
theorem habits_c6 :
    (∀ (fuel : ℕ) (s : Store) (id : String) (h : Habit),
      storeGet s id = some h →
      deleteHabitF (fuel + 1) s id =
        (match runDeletes (deleteHabitF fuel) s h.subhabit_ids with
         | (s1, none) => (storeDelete s1 id, none)
         | (s1, some e) => (s1, some e))) ∧
      (∀ (fuel : ℕ) (s : Store) (pid cid : String) (p ch : Habit),
        storeGet s pid = some p → p.subhabit_ids = [cid] →
        storeGet s cid = some ch → ch.subhabit_ids = [] →
        deleteHabitF (fuel + 1 + 1) s pid
            = (storeDelete (storeDelete s cid) pid, none) ∧
          storeGet (deleteHabitF (fuel + 1 + 1) s pid).1 pid = none ∧
          storeGet (deleteHabitF (fuel + 1 + 1) s pid).1 cid = none) := by
  constructor
  · intro fuel s id h hget
    simp only [deleteHabitF, hget]
  · intro fuel s pid cid p ch hp hsubs hc hchsubs
    have hne : cid ≠ pid := by
      intro heq
      subst heq
      rw [hp] at hc
      injection hc with hpc
      rw [hpc, hchsubs] at hsubs
      simp at hsubs
    have h1 : deleteHabitF (fuel + 1) s cid = (storeDelete s cid, none) := by
      simp only [deleteHabitF, hc, hchsubs, runDeletes]
    have h2 : runDeletes (deleteHabitF (fuel + 1)) s [cid]
        = (storeDelete s cid, none) := by
      simp only [runDeletes, h1]
    have hstep : deleteHabitF (fuel + 1 + 1) s pid
        = (storeDelete (storeDelete s cid) pid, none) := by
      rw [deleteHabitF_succ (fuel + 1) s pid, hp]
      dsimp only
      rw [hsubs, h2]
    refine ⟨hstep, ?_, ?_⟩
    · rw [hstep]
      exact storeGet_delete_self (storeDelete s cid) pid
    · rw [hstep]
      show storeGet (storeDelete (storeDelete s cid) pid) cid = none
      rw [storeGet_delete_of_ne (storeDelete s cid) pid cid hne]
      exact storeGet_delete_self s cid

/-- Parent habit of the Scenario E witness store. -/
def c6Parent : Habit := ⟨"p", "parent", none, none, .boolean, none, 0, none, ["c"]⟩

/-- Leaf sub-habit of the Scenario E witness store. -/
def c6Child : Habit := ⟨"c", "child", none, none, .boolean, none, 0, some "p", []⟩

theorem habits_c6_witness :
    deleteHabitF 2 [c6Parent, c6Child] "p"
        = (storeDelete (storeDelete [c6Parent, c6Child] "c") "p", none) ∧
      storeGet (deleteHabitF 2 [c6Parent, c6Child] "p").1 "p" = none ∧
      storeGet (deleteHabitF 2 [c6Parent, c6Child] "p").1 "c" = none :=
  habits_c6.2 0 [c6Parent, c6Child] "p" "c" c6Parent c6Child
    (by decide) (by decide) (by decide) (by decide)

/-- C8: each of update, delete, add-subhabit, record-log, get-logs and
get-statistics raises the not-found error when the addressed habit id (the
parent id for add-subhabit) is absent, leaving the habit and log stores
unchanged, while `get` simply returns `none`. -/
theorem habits_c8 (s : Store) (ls : List LogEntry) (id : String) (u : HabitUpdate)
    (sub : Habit) (fuel : ℕ) (d : ℤ) (v : Option ℚ) (newId : String) (now : ℤ)
    (start stop : Option ℤ) (today : ℤ) (habsent : storeGet s id = none) :
    getHabit s id = none ∧
      updateHabit s id u = (s, some .notFound) ∧
      deleteHabitF (fuel + 1) s id = (s, some .notFound) ∧
      addSubhabit s id sub = (s, some .notFound) ∧
      recordLog s ls id d v newId now = ((s, ls), some .notFound) ∧
      getLogs s ls id start stop = .error .notFound ∧
      getStatistics s ls id start stop today = .error .notFound := by
  refine ⟨habsent, ?_, ?_, ?_, ?_, ?_, ?_⟩ <;>
    simp only [updateHabit, deleteHabitF, addSubhabit, recordLog, getLogs,
      getStatistics, habsent]

/-- A habit used only as the would-be sub-habit in the C8 witness. -/
def c8Sub : Habit := ⟨"s", "sub", none, none, .boolean, none, 0, none, []⟩

theorem habits_c8_witness :
    getHabit [] "x" = none ∧
      updateHabit [] "x" ⟨none, none, none, none⟩ = ([], some .notFound) ∧
      deleteHabitF 1 [] "x" = ([], some .notFound) ∧
      addSubhabit [] "x" c8Sub = ([], some .notFound) ∧
      recordLog [] [] "x" 0 none "l" 0 = (([], []), some .notFound) ∧
      getLogs [] [] "x" none none = .error .notFound ∧
      getStatistics [] [] "x" none none 0 = .error .notFound :=
  habits_c8 [] [] "x" ⟨none, none, none, none⟩ c8Sub 0 0 none "l" 0 none none 0
    (by decide)

lemma applyUpdate_fields (h : Habit) (u : HabitUpdate) :
    (applyUpdate h u).id = h.id ∧
      (applyUpdate h u).type = h.type ∧
      (applyUpdate h u).created_at = h.created_at ∧
      (applyUpdate h u).parent_id = h.parent_id ∧
      (applyUpdate h u).subhabit_ids = h.subhabit_ids ∧
      (applyUpdate h u).name = (match u.name with | some n => n | none => h.name) ∧
      (applyUpdate h u).description
        = (match u.description with | some dsc => some dsc | none => h.description) ∧
      (applyUpdate h u).category
        = (match u.category with | some cg => some cg | none => h.category) ∧
      (applyUpdate h u).goal
        = (match u.goal with | some g => some g | none => h.goal) := by
  rcases u with ⟨un, ud, uc, ug⟩
  cases un <;> cases ud <;> cases uc <;> cases ug <;>
    exact ⟨rfl, rfl, rfl, rfl, rfl, rfl, rfl, rfl, rfl⟩

/-- C9: update on an existing habit succeeds and replaces exactly the fields
supplied in the request (name, description, category, goal); omitted fields
and the habit's id, type, creation timestamp, parent id and sub-habit list
are unchanged, and no other stored habit is touched. -/
theorem habits_c9 (s : Store) (id : String) (u : HabitUpdate) (h : Habit)
    (hget : storeGet s id = some h) :
    (updateHabit s id u).2 = none ∧
      storeGet (updateHabit s id u).1 id = some (applyUpdate h u) ∧
      (applyUpdate h u).id = h.id ∧
      (applyUpdate h u).type = h.type ∧
      (applyUpdate h u).created_at = h.created_at ∧
      (applyUpdate h u).parent_id = h.parent_id ∧
      (applyUpdate h u).subhabit_ids = h.subhabit_ids ∧
      (applyUpdate h u).name = (match u.name with | some n => n | none => h.name) ∧
      (applyUpdate h u).description
        = (match u.description with | some dsc => some dsc | none => h.description) ∧
      (applyUpdate h u).category
        = (match u.category with | some cg => some cg | none => h.category) ∧
      (applyUpdate h u).goal
        = (match u.goal with | some g => some g | none => h.goal) ∧
      (∀ j, j ≠ id → storeGet (updateHabit s id u).1 j = storeGet s j) := by
  have hid : h.id = id := storeGet_some_id s id h hget
  have hid2 : (applyUpdate h u).id = id := by
    rw [(applyUpdate_fields h u).1, hid]
  have hupd : updateHabit s id u = (storeReplace s id (applyUpdate h u), none) := by
    simp [updateHabit, hget, repoUpdate, hid2]
  obtain ⟨f1, f2, f3, f4, f5, f6, f7, f8, f9⟩ := applyUpdate_fields h u
  refine ⟨by rw [hupd], ?_, f1, f2, f3, f4, f5, f6, f7, f8, f9, ?_⟩
  · rw [hupd]
    exact storeGet_replace_self s id (applyUpdate h u) hid2 (by rw [hget]; rfl)
  · intro j hj
    rw [hupd]
    exact storeGet_replace_of_ne s id j (applyUpdate h u) hid2 hj

/-- The pre-update habit of the C9 witness. -/
def c9Habit : Habit := ⟨"h", "old", some "od", none, .numeric, some 1, 0, none, []⟩

/-- The update request of the C9 witness: sets name and category only. -/
def c9Update : HabitUpdate := ⟨some "new", none, some "cat", none⟩

theorem habits_c9_witness :
    (updateHabit [c9Habit] "h" c9Update).2 = none ∧
      storeGet (updateHabit [c9Habit] "h" c9Update).1 "h"
        = some (applyUpdate c9Habit c9Update) ∧
      (applyUpdate c9Habit c9Update).id = c9Habit.id ∧
      (applyUpdate c9Habit c9Update).type = c9Habit.type ∧
      (applyUpdate c9Habit c9Update).created_at = c9Habit.created_at ∧
      (applyUpdate c9Habit c9Update).parent_id = c9Habit.parent_id ∧
      (applyUpdate c9Habit c9Update).subhabit_ids = c9Habit.subhabit_ids ∧
      (applyUpdate c9Habit c9Update).name
        = (match c9Update.name with | some n => n | none => c9Habit.name) ∧
      (applyUpdate c9Habit c9Update).description
        = (match c9Update.description with
           | some dsc => some dsc
           | none => c9Habit.description) ∧
      (applyUpdate c9Habit c9Update).category
        = (match c9Update.category with
           | some cg => some cg
           | none => c9Habit.category) ∧
      (applyUpdate c9Habit c9Update).goal
        = (match c9Update.goal with | some g => some g | none => c9Habit.goal) ∧
      (∀ j, j ≠ "h" →
        storeGet (updateHabit [c9Habit] "h" c9Update).1 j
          = storeGet [c9Habit] j) :=
  habits_c9 [c9Habit] "h" c9Update c9Habit (by decide)

/-- C10 (amended): when a habit's `subhabit_ids` is `pre ++ x :: post` with
`x` absent from the store, and the recursive deletions of the `pre` prefix
all succeed yielding `s1` (with the habit itself surviving them), then
delete raises not-found, the resulting store is exactly `s1` — the prefix
sub-habits are gone and are not restored — and the habit itself is still
present. -/
theorem habits_c10 (s : Store) (h : Habit) (pre post : List String) (x : String)
    (s1 : Store) (fuel : ℕ)
    (hget : storeGet s h.id = some h)
    (hsubs : h.subhabit_ids = pre ++ x :: post)
    (hx : storeGet s x = none)
    (hpre : runDeletes (deleteHabitF (fuel + 1)) s pre = (s1, none))
    (hsurv : storeGet s1 h.id = some h) :
    deleteHabitF (fuel + 1 + 1) s h.id = (s1, some .notFound) ∧
      (∀ i ∈ pre, storeGet s1 i = none) ∧
      storeGet (deleteHabitF (fuel + 1 + 1) s h.id).1 h.id = some h := by
  have hx1 : storeGet s1 x = none := by
    have habs := runDeletes_absent (deleteHabitF (fuel + 1)) x
      (fun s' id' hs' => deleteHabitF_absent x (fuel + 1) s' id' hs') pre s hx
    rw [hpre] at habs
    exact habs
  have hdelx : deleteHabitF (fuel + 1) s1 x = (s1, some Err.notFound) := by
    simp only [deleteHabitF, hx1]
  have hrunx : runDeletes (deleteHabitF (fuel + 1)) s1 (x :: post)
      = (s1, some Err.notFound) := by
    simp only [runDeletes, hdelx]
  have hrun : runDeletes (deleteHabitF (fuel + 1)) s (pre ++ x :: post)
      = (s1, some Err.notFound) := by
    rw [runDeletes_append (deleteHabitF (fuel + 1)) pre (x :: post) s]
    simp only [hpre]
    exact hrunx
  have hmain : deleteHabitF (fuel + 1 + 1) s h.id = (s1, some Err.notFound) := by
    rw [deleteHabitF_succ (fuel + 1) s h.id, hget]
    dsimp only
    rw [hsubs, hrun]
  refine ⟨hmain, ?_, ?_⟩
  · exact runDeletes_removes (deleteHabitF (fuel + 1))
      (fun s0 id0 s0' h0 => deleteHabitF_removes (fuel + 1) s0 id0 s0' h0)
      (fun s0 id0 j0 hs0 => deleteHabitF_absent j0 (fuel + 1) s0 id0 hs0)
      pre s s1 hpre
  · rw [hmain]
    exact hsurv

/-- Habit "a" of the C10 counterexample: children `b` (present) and `x`
(absent). -/
def c10A : Habit := ⟨"a", "a", none, none, .boolean, none, 0, none, ["b", "x"]⟩

/-- Habit "b" of the C10 counterexample: its own child `y` is absent, so
deleting `b` fails before `x` is ever reached. -/
def c10B : Habit := ⟨"b", "b", none, none, .boolean, none, 0, some "a", ["y"]⟩

/-- The C10 counterexample store. -/
def c10Store : Store := [c10A, c10B]

/-- C10 (counterexample): in a store where habit `a` lists the absent id
`x` *after* the present sub-habit `b` whose own subtree is broken, deleting
`a` does raise not-found, but `b` — listed before the dangling id `x` — is
*not* deleted (the failure happened inside `b`'s own recursive delete), so
the claim's "any sub-habits listed before the dangling id have already been
deleted" fails. -/
theorem habits_c10_counterexample :
    c10A.subhabit_ids = ["b", "x"] ∧
      storeGet c10Store "x" = none ∧
      deleteHabitF 3 c10Store "a" = (c10Store, some .notFound) ∧
      storeGet c10Store "b" = some c10B := by
  refine ⟨rfl, ?_, ?_, ?_⟩ <;> decide

/-- Parent habit of the C10 witness store. -/
def c10P : Habit := ⟨"p", "p", none, none, .boolean, none, 0, none, ["c1", "x"]⟩

/-- Leaf sub-habit of the C10 witness store. -/
def c10C : Habit := ⟨"c1", "c1", none, none, .boolean, none, 0, some "p", []⟩

theorem habits_c10_witness :
    deleteHabitF 2 [c10P, c10C] c10P.id = ([c10P], some .notFound) ∧
      (∀ i ∈ ["c1"], storeGet [c10P] i = none) ∧
      storeGet (deleteHabitF 2 [c10P, c10C] c10P.id).1 c10P.id = some c10P :=
  habits_c10 [c10P, c10C] c10P ["c1"] [] "x" [c10P] 0
    (by decide) (by decide) (by decide) (by decide) (by decide)

/-- The habit created with a `parent_id` that references no stored habit. -/
def ghostHabit : Habit := ⟨"a", "a", none, none, .boolean, none, 0, some "ghost", []⟩

/-- C7 (counterexample): the invariant is *not* maintained in every
reachable state — creating a habit whose `parent_id` names an id absent
from the store (the API passes the payload's `parent_id` through without
validation or linking) yields a reachable store violating the
parent-reference clause. -/
theorem habits_c7_counterexample :
    Reachable [ghostHabit] ∧
      storeGet [ghostHabit] "a" = some ghostHabit ∧
      ghostHabit.parent_id = some "ghost" ∧
      storeGet [ghostHabit] "ghost" = none ∧
      ¬ storeInvariant [ghostHabit] := by
  refine ⟨?_, by decide, rfl, by decide, by decide⟩
  have h1 : Reachable (createHabit [] ghostHabit) :=
    Reachable.create [] ghostHabit Reachable.init rfl rfl
  have h2 : createHabit [] ghostHabit = [ghostHabit] := by decide
  exact h2 ▸ h1

/-- Parent habit after linking its sub-habit (C7 amended trace). -/
def c7Parent2 : Habit := ⟨"p", "parent", none, none, .boolean, none, 0, none, ["c"]⟩

/-- The freshly created parent of the C7 amended trace. -/
def c7Parent : Habit := ⟨"p", "parent", none, none, .boolean, none, 0, none, []⟩

/-- The sub-habit added (and then deleted) in the C7 amended trace. -/
def c7Child : Habit := ⟨"c", "child", none, none, .boolean, none, 0, none, []⟩

/-- The stored sub-habit, as linked by add-subhabit. -/
def c7Child2 : Habit := ⟨"c", "child", none, none, .boolean, none, 0, some "p", []⟩

/-- C7 (amended): reachable states can violate the invariant both ways —
besides the dangling `parent_id` of the counterexample, deleting a
sub-habit directly leaves its id dangling inside the parent's
`subhabit_ids`: create a parent, add a sub-habit, delete the sub-habit; the
resulting reachable store keeps `"c"` in the parent's `subhabit_ids`
although no habit `"c"` is stored. -/
theorem habits_c7_amended :
    Reachable [c7Parent2] ∧
      storeGet [c7Parent2] "p" = some c7Parent2 ∧
      c7Parent2.subhabit_ids = ["c"] ∧
      storeGet [c7Parent2] "c" = none ∧
      ¬ storeInvariant [c7Parent2] := by
  refine ⟨?_, by decide, rfl, by decide, by decide⟩
  have h1 : Reachable (createHabit [] c7Parent) :=
    Reachable.create [] c7Parent Reachable.init rfl rfl
  have h2 : Reachable [c7Parent] := by
    have heq : createHabit [] c7Parent = [c7Parent] := by decide
    exact heq ▸ h1
  have h3 : Reachable [c7Parent2, c7Child2] :=
    Reachable.addSub [c7Parent] "p" c7Child [c7Parent2, c7Child2] none h2 rfl
      (by decide) (by decide)
  exact Reachable.delete [c7Parent2, c7Child2] "c" 1 [c7Parent2] none h3 (by decide)

theorem habits_c1_witness :
    (∀ l : LogEntry, l ∈ filterLogsByDate [] none none ↔
        l ∈ ([] : List LogEntry) ∧ (∀ a ∈ (none : Option ℤ), a ≤ l.date) ∧
          (∀ b ∈ (none : Option ℤ), l.date ≤ b)) ∧
      ((0 : ℤ) ∈ booleanCompletedDates (filterLogsByDate [] none none) ↔
        ∃ l, l ∈ filterLogsByDate [] none none ∧
          (∃ v, l.value = some v ∧ (1 : ℚ) ≤ v) ∧ l.date = 0) ∧
      ((0 : ℤ) ∈ (numericAccum (some 1) (filterLogsByDate [] none none)).1 ↔
        ∃ l, l ∈ filterLogsByDate [] none none ∧
          (∃ v, l.value = some v ∧ (1 : ℚ) ≤ v) ∧ l.date = 0) ∧
      ((0 : ℤ) ∈ (numericAccum none (filterLogsByDate [] none none)).1 ↔
        ∃ l, l ∈ filterLogsByDate [] none none ∧
          (∃ v, l.value = some v ∧ 0 < v) ∧ l.date = 0) :=
  habits_c1 [] none none 1 0

theorem habits_c2_witness :
    (∀ k : ℕ, k < (calculateStreaks (∅ : Finset ℤ) 0).1 →
        (0 : ℤ) - (k : ℤ) ∈ (∅ : Finset ℤ)) ∧
      (0 : ℤ) - ((calculateStreaks (∅ : Finset ℤ) 0).1 : ℤ) ∉ (∅ : Finset ℤ) ∧
      ((0 : ℤ) ∉ (∅ : Finset ℤ) → (calculateStreaks (∅ : Finset ℤ) 0).1 = 0) ∧
      (∃ e : ℤ, ∀ k : ℕ, k < (calculateStreaks (∅ : Finset ℤ) 0).2 →
        e + (k : ℤ) ∈ (∅ : Finset ℤ)) ∧
      (∀ (e : ℤ) (n : ℕ), (∀ k : ℕ, k < n → e + (k : ℤ) ∈ (∅ : Finset ℤ)) →
        n ≤ (calculateStreaks (∅ : Finset ℤ) 0).2) ∧
      ((∅ : Finset ℤ) = ∅ → calculateStreaks (∅ : Finset ℤ) 0 = (0, 0)) :=
  habits_c2 ∅ 0

theorem habits_c3_witness :
    0 ≤ (computeStatistics ⟨"h", "n", none, none, .boolean, none, 0, none, []⟩
        [] none none 0).completion_rate ∧
      (computeStatistics ⟨"h", "n", none, none, .boolean, none, 0, none, []⟩
        [] none none 0).completion_rate ≤ 1 ∧
      (computeStatistics ⟨"h", "n", none, none, .boolean, none, 0, none, []⟩
        [] none none 0).total_days_tracked = (filterLogsByDate [] none none).length ∧
      (computeStatistics ⟨"h", "n", none, none, .boolean, none, 0, none, []⟩
          [] none none 0).total_completions
        = (completedDatesOf ⟨"h", "n", none, none, .boolean, none, 0, none, []⟩
            (filterLogsByDate [] none none)).card ∧
      (computeStatistics ⟨"h", "n", none, none, .boolean, none, 0, none, []⟩
          [] none none 0).completion_rate
        = (if 0 < (computeStatistics ⟨"h", "n", none, none, .boolean, none, 0, none, []⟩
              [] none none 0).total_days_tracked
           then ((computeStatistics ⟨"h", "n", none, none, .boolean, none, 0, none, []⟩
              [] none none 0).total_completions : ℚ)
              / ((computeStatistics ⟨"h", "n", none, none, .boolean, none, 0, none, []⟩
              [] none none 0).total_days_tracked : ℚ)
           else 0) :=
  habits_c3 ⟨"h", "n", none, none, .boolean, none, 0, none, []⟩ [] none none 0

theorem habits_c4_witness :
    (calculateStreaks (∅ : Finset ℤ) 0).1 ≤ (calculateStreaks (∅ : Finset ℤ) 0).2 :=
  habits_c4 ∅ 0

theorem habits_c5_witness :
    ((numericCalculate ⟨"h", "n", none, none, .numeric, none, 0, none, []⟩
          [] none none 0).average_value
        = (if ((filterLogsByDate [] none none).filterMap (fun l => l.value)).isEmpty
           then none
           else some (((filterLogsByDate [] none none).filterMap (fun l => l.value)).sum
                  / (((filterLogsByDate [] none none).filterMap
                      (fun l => l.value)).length : ℚ)))) ∧
      ((numericCalculate ⟨"h", "n", none, none, .numeric, none, 0, none, []⟩
          [] none none 0).average_value = none ↔
        ∀ l ∈ filterLogsByDate [] none none, l.value = none) ∧
      (booleanCalculate ⟨"h", "n", none, none, .numeric, none, 0, none, []⟩
          [] none none 0).average_value = none :=
  habits_c5 ⟨"h", "n", none, none, .numeric, none, 0, none, []⟩ [] none none 0

end HabitApp
